import Mathlib

/-!
Verification of the charger-uptime core (`src/main.py`): the interval merger
`merge_intervals` and the per-station aggregator `compute_station_uptimes`,
shallowly embedded over `Int` (Python integers are unbounded).

Data model:
* an availability report is `(start, end, up) : Int × Int × Bool`;
* `charger_reports : List (Int × List (Int × Int × Bool))` models the Python
  dict `charger_id -> list of reports` (association list, first match wins);
* `station_chargers : List (Int × List Int)` models the dict
  `station_id -> set of charger ids` (the list abstracts the set's
  iteration order);
* the returned dict `station_id -> percent`, which Python fills in ascending
  key order, is modelled as the association list in ascending key order.
-/

/-- The sort key of `sorted(intervals, key=lambda x: (x[0], x[1]))`:
lexicographic order on `(start, end)`. -/
def lexLe (a b : Int × Int) : Prop :=
  a.1 < b.1 ∨ (a.1 = b.1 ∧ a.2 ≤ b.2)

instance : DecidableRel lexLe := fun a b =>
  inferInstanceAs (Decidable (a.1 < b.1 ∨ (a.1 = b.1 ∧ a.2 ≤ b.2)))

instance : IsTotal (Int × Int) lexLe :=
  ⟨fun a b => by
    rcases lt_trichotomy a.1 b.1 with h | h | h
    · exact Or.inl (Or.inl h)
    · rcases le_total a.2 b.2 with h2 | h2
      · exact Or.inl (Or.inr ⟨h, h2⟩)
      · exact Or.inr (Or.inr ⟨h.symm, h2⟩)
    · exact Or.inr (Or.inl h)⟩

instance : IsTrans (Int × Int) lexLe :=
  ⟨fun a b c hab hbc => by
    rcases hab with h1 | ⟨h1, h1'⟩ <;> rcases hbc with h2 | ⟨h2, h2'⟩
    · exact Or.inl (h1.trans h2)
    · exact Or.inl (h2 ▸ h1)
    · exact Or.inl (h1 ▸ h2)
    · exact Or.inr ⟨h1.trans h2, h1'.trans h2'⟩⟩

instance : IsAntisymm (Int × Int) lexLe :=
  ⟨fun a b hab hba => by
    rcases hab with h1 | ⟨h1, h1'⟩ <;> rcases hba with h2 | ⟨h2, h2'⟩
    · exact absurd (h1.trans h2) (lt_irrefl _)
    · exact absurd h1 (h2 ▸ lt_irrefl _)
    · exact absurd h2 (h1 ▸ lt_irrefl _)
    · exact Prod.ext h1 (le_antisymm h1' h2')⟩

/-- The sweep of `merge_intervals`: `cur` is the current merged interval
(`merged[-1]` in the Python code), the list is the remaining sorted input.
`if start > last[1]` appends a new interval, otherwise the current end is
extended to the maximum of the two ends. -/
def mergeLoop : List (Int × Int) → Int × Int → List (Int × Int)
  | [], cur => [cur]
  | (s, e) :: rest, cur =>
    if s > cur.2 then cur :: mergeLoop rest (s, e)
    else mergeLoop rest (cur.1, max cur.2 e)

/-- `merge_intervals` from `src/main.py`: sort by `(start, end)`, then sweep,
merging overlapping or touching intervals. -/
def merge_intervals (intervals : List (Int × Int)) : List (Int × Int) :=
  match List.insertionSort lexLe intervals with
  | [] => []
  | first :: rest => mergeLoop rest first

/-- `charger_reports.get(cid, [])`: the report list of charger `cid`,
empty when the charger has no reports. -/
def reportsFor (charger_reports : List (Int × List (Int × Int × Bool)))
    (cid : Int) : List (Int × Int × Bool) :=
  match charger_reports.find? (fun p => p.1 == cid) with
  | some p => p.2
  | none => []

/-- `station_chargers[station_id]`: the chargers assigned to a station. -/
def chargersFor (station_chargers : List (Int × List Int)) (sid : Int) :
    List Int :=
  match station_chargers.find? (fun p => p.1 == sid) with
  | some p => p.2
  | none => []

/-- The station's reports, flattened over its chargers, in loop order. -/
def stationReports (chargers : List Int)
    (charger_reports : List (Int × List (Int × Int × Bool))) :
    List (Int × Int × Bool) :=
  chargers.flatMap (fun cid => reportsFor charger_reports cid)

/-- `all_entries`: every `(start, end)` of the station's reports, up or down. -/
def allEntries (chargers : List Int)
    (charger_reports : List (Int × List (Int × Int × Bool))) :
    List (Int × Int) :=
  (stationReports chargers charger_reports).map (fun r => (r.1, r.2.1))

/-- `up_intervals`: the `(start, end)` of the reports flagged up. -/
def upIntervals (chargers : List Int)
    (charger_reports : List (Int × List (Int × Int × Bool))) :
    List (Int × Int) :=
  ((stationReports chargers charger_reports).filter (fun r => r.2.2)).map
    (fun r => (r.1, r.2.1))

/-- `sum(e - s for (s, e) in l)`. -/
def sumLen (l : List (Int × Int)) : Int :=
  (l.map (fun p => p.2 - p.1)).sum

/-- `min(s for s, _ in all_entries)` (0 on the empty list, which the code
never queries). -/
def minStart (l : List (Int × Int)) : Int :=
  match l with
  | [] => 0
  | p :: rest => (rest.map Prod.fst).foldl min p.1

/-- `max(e for _, e in all_entries)` (0 on the empty list, which the code
never queries). -/
def maxEnd (l : List (Int × Int)) : Int :=
  match l with
  | [] => 0
  | p :: rest => (rest.map Prod.snd).foldl max p.2

/-- The body of the station loop of `compute_station_uptimes`: the percentage
stored for one station. Python `//` is floor division, embedded as
`Int.fdiv`. -/
def stationUptime (chargers : List Int)
    (charger_reports : List (Int × List (Int × Int × Bool))) : Int :=
  let entries := allEntries chargers charger_reports
  if entries = [] then 0
  else
    let station_start := minStart entries
    let station_end := maxEnd entries
    let total_span := station_end - station_start
    if total_span ≤ 0 then 0
    else
      let up_time := sumLen (merge_intervals (upIntervals chargers charger_reports))
      let pct := Int.fdiv (up_time * 100) total_span
      if pct < 0 then 0 else if pct > 100 then 100 else pct

/-- `sorted(station_chargers.keys())`: the declared station ids, deduplicated
(dict keys are unique) and in ascending order. -/
def stationKeys (station_chargers : List (Int × List Int)) : List Int :=
  List.insertionSort (fun a b : Int => a ≤ b)
    (station_chargers.map Prod.fst).dedup

/-- `compute_station_uptimes` from `src/main.py`: one `(station_id, percent)`
entry per declared station, in ascending station-id order. -/
def compute_station_uptimes (station_chargers : List (Int × List Int))
    (charger_reports : List (Int × List (Int × Int × Bool))) :
    List (Int × Int) :=
  (stationKeys station_chargers).map
    (fun sid => (sid, stationUptime (chargersFor station_chargers sid) charger_reports))

/-- The set of integer instants covered by a list of half-open `[s, e)`
intervals: the "union of time" of the spec. -/
def covered (l : List (Int × Int)) : Finset Int :=
  l.foldr (fun p acc => Finset.Ico p.1 p.2 ∪ acc) ∅

/-! ### Basic list lemmas -/

lemma foldl_min_le_init (xs : List Int) (x : Int) : xs.foldl min x ≤ x := by
  induction xs generalizing x with
  | nil => exact le_refl x
  | cons y ys ih => exact le_trans (ih (min x y)) (min_le_left x y)

lemma foldl_min_le_mem (xs : List Int) (x y : Int) (hy : y ∈ xs) :
    xs.foldl min x ≤ y := by
  induction xs generalizing x with
  | nil => cases hy
  | cons z zs ih =>
    rcases List.mem_cons.mp hy with h | h
    · subst h
      exact le_trans (foldl_min_le_init zs (min x y)) (min_le_right x y)
    · exact ih (min x z) h

lemma foldl_min_mem (xs : List Int) (x : Int) :
    xs.foldl min x = x ∨ xs.foldl min x ∈ xs := by
  induction xs generalizing x with
  | nil => exact Or.inl rfl
  | cons y ys ih =>
    rw [List.foldl_cons]
    rcases ih (min x y) with h | h
    · rcases min_cases x y with ⟨he, _⟩ | ⟨he, _⟩
      · exact Or.inl (by rw [h, he])
      · exact Or.inr (by rw [h, he]; exact List.mem_cons_self y ys)
    · exact Or.inr (List.mem_cons_of_mem y h)

lemma foldl_max_init_le (xs : List Int) (x : Int) : x ≤ xs.foldl max x := by
  induction xs generalizing x with
  | nil => exact le_refl x
  | cons y ys ih => exact le_trans (le_max_left x y) (ih (max x y))

lemma foldl_max_mem_le (xs : List Int) (x y : Int) (hy : y ∈ xs) :
    y ≤ xs.foldl max x := by
  induction xs generalizing x with
  | nil => cases hy
  | cons z zs ih =>
    rcases List.mem_cons.mp hy with h | h
    · subst h
      exact le_trans (le_max_right x y) (foldl_max_init_le zs (max x y))
    · exact ih (max x z) h

lemma foldl_max_mem (xs : List Int) (x : Int) :
    xs.foldl max x = x ∨ xs.foldl max x ∈ xs := by
  induction xs generalizing x with
  | nil => exact Or.inl rfl
  | cons y ys ih =>
    rw [List.foldl_cons]
    rcases ih (max x y) with h | h
    · rcases max_cases x y with ⟨he, _⟩ | ⟨he, _⟩
      · exact Or.inl (by rw [h, he])
      · exact Or.inr (by rw [h, he]; exact List.mem_cons_self y ys)
    · exact Or.inr (List.mem_cons_of_mem y h)

/-! ### `minStart` and `maxEnd` are the min start and max end -/

lemma minStart_le (l : List (Int × Int)) (p : Int × Int) (hp : p ∈ l) :
    minStart l ≤ p.1 := by
  cases l with
  | nil => cases hp
  | cons q rest =>
    rcases List.mem_cons.mp hp with h | h
    · subst h; exact foldl_min_le_init _ _
    · exact foldl_min_le_mem _ _ _ (List.mem_map.mpr ⟨p, h, rfl⟩)

lemma minStart_mem (l : List (Int × Int)) (hne : l ≠ []) :
    minStart l ∈ l.map Prod.fst := by
  cases l with
  | nil => exact absurd rfl hne
  | cons q rest =>
    show (rest.map Prod.fst).foldl min q.1 ∈ (q :: rest).map Prod.fst
    rcases foldl_min_mem (rest.map Prod.fst) q.1 with h | h
    · rw [h]; exact List.mem_map.mpr ⟨q, List.mem_cons_self q rest, rfl⟩
    · rcases List.mem_map.mp h with ⟨p, hp, he⟩
      rw [← he]
      exact List.mem_map.mpr ⟨p, List.mem_cons_of_mem q hp, rfl⟩

lemma le_maxEnd (l : List (Int × Int)) (p : Int × Int) (hp : p ∈ l) :
    p.2 ≤ maxEnd l := by
  cases l with
  | nil => cases hp
  | cons q rest =>
    rcases List.mem_cons.mp hp with h | h
    · subst h; exact foldl_max_init_le _ _
    · exact foldl_max_mem_le _ _ _ (List.mem_map.mpr ⟨p, h, rfl⟩)

lemma maxEnd_mem (l : List (Int × Int)) (hne : l ≠ []) :
    maxEnd l ∈ l.map Prod.snd := by
  cases l with
  | nil => exact absurd rfl hne
  | cons q rest =>
    show (rest.map Prod.snd).foldl max q.2 ∈ (q :: rest).map Prod.snd
    rcases foldl_max_mem (rest.map Prod.snd) q.2 with h | h
    · rw [h]; exact List.mem_map.mpr ⟨q, List.mem_cons_self q rest, rfl⟩
    · rcases List.mem_map.mp h with ⟨p, hp, he⟩
      rw [← he]
      exact List.mem_map.mpr ⟨p, List.mem_cons_of_mem q hp, rfl⟩

lemma minStart_eq_of_perm (l₁ l₂ : List (Int × Int)) (h : List.Perm l₁ l₂)
    (hne : l₁ ≠ []) : minStart l₁ = minStart l₂ := by
  have hne₂ : l₂ ≠ [] := by
    intro he; exact hne (List.Perm.eq_nil (he ▸ h))
  rcases List.mem_map.mp (minStart_mem l₁ hne) with ⟨p, hp, hv⟩
  rcases List.mem_map.mp (minStart_mem l₂ hne₂) with ⟨q, hq, hw⟩
  exact le_antisymm (hw ▸ minStart_le l₁ q (h.mem_iff.mpr hq))
    (hv ▸ minStart_le l₂ p (h.mem_iff.mp hp))

lemma maxEnd_eq_of_perm (l₁ l₂ : List (Int × Int)) (h : List.Perm l₁ l₂)
    (hne : l₁ ≠ []) : maxEnd l₁ = maxEnd l₂ := by
  have hne₂ : l₂ ≠ [] := by
    intro he; exact hne (List.Perm.eq_nil (he ▸ h))
  rcases List.mem_map.mp (maxEnd_mem l₁ hne) with ⟨p, hp, hv⟩
  rcases List.mem_map.mp (maxEnd_mem l₂ hne₂) with ⟨q, hq, hw⟩
  exact le_antisymm (hv ▸ le_maxEnd l₂ p (h.mem_iff.mp hp))
    (hw ▸ le_maxEnd l₁ q (h.mem_iff.mpr hq))

/-! ### `covered` -/

lemma mem_covered (x : Int) (l : List (Int × Int)) :
    x ∈ covered l ↔ ∃ p ∈ l, p.1 ≤ x ∧ x < p.2 := by
  induction l with
  | nil => simp [covered]
  | cons q rest ih =>
    simp only [covered, List.foldr_cons, Finset.mem_union, Finset.mem_Ico]
    constructor
    · rintro (h | h)
      · exact ⟨q, List.mem_cons_self q rest, h⟩
      · rcases (ih.mp h) with ⟨p, hp, hb⟩
        exact ⟨p, List.mem_cons_of_mem q hp, hb⟩
    · rintro ⟨p, hp, hb⟩
      rcases List.mem_cons.mp hp with h | h
      · exact Or.inl (h ▸ hb)
      · exact Or.inr (ih.mpr ⟨p, h, hb⟩)

lemma covered_cons (q : Int × Int) (l : List (Int × Int)) :
    covered (q :: l) = Finset.Ico q.1 q.2 ∪ covered l := rfl

lemma covered_eq_of_perm (l₁ l₂ : List (Int × Int)) (h : List.Perm l₁ l₂) :
    covered l₁ = covered l₂ := by
  ext x
  rw [mem_covered, mem_covered]
  constructor
  · rintro ⟨p, hp, hb⟩; exact ⟨p, h.mem_iff.mp hp, hb⟩
  · rintro ⟨p, hp, hb⟩; exact ⟨p, h.mem_iff.mpr hp, hb⟩

/-! ### `mergeLoop` invariants -/

lemma mergeLoop_head (l : List (Int × Int)) (cur : Int × Int) :
    ∃ e tl, cur.2 ≤ e ∧ mergeLoop l cur = (cur.1, e) :: tl := by
  induction l generalizing cur with
  | nil => exact ⟨cur.2, [], le_refl _, rfl⟩
  | cons q rest ih =>
    by_cases h : q.1 > cur.2
    · exact ⟨cur.2, mergeLoop rest (q.1, q.2), le_refl _, by
        simp only [mergeLoop, if_pos h]⟩
    · rcases ih (cur.1, max cur.2 q.2) with ⟨e, tl, he, hm⟩
      exact ⟨e, tl, le_trans (le_max_left _ _) he, by
        simp only [mergeLoop, if_neg h]; exact hm⟩

lemma mergeLoop_ne_nil (l : List (Int × Int)) (cur : Int × Int) :
    mergeLoop l cur ≠ [] := by
  rcases mergeLoop_head l cur with ⟨e, tl, _, hm⟩
  rw [hm]; exact List.cons_ne_nil _ _

lemma mergeLoop_chain (l : List (Int × Int)) (cur : Int × Int) :
    List.Chain' (fun a b : Int × Int => a.2 < b.1) (mergeLoop l cur) := by
  induction l generalizing cur with
  | nil => exact List.chain'_singleton cur
  | cons q rest ih =>
    by_cases h : q.1 > cur.2
    · simp only [mergeLoop, if_pos h]
      rcases mergeLoop_head rest (q.1, q.2) with ⟨e, tl, _, hm⟩
      rw [hm]
      exact List.Chain'.cons h (hm ▸ ih (q.1, q.2))
    · simp only [mergeLoop, if_neg h]
      exact ih (cur.1, max cur.2 q.2)

lemma mergeLoop_valid (l : List (Int × Int)) (cur : Int × Int)
    (hl : ∀ p ∈ l, p.1 ≤ p.2) (hc : cur.1 ≤ cur.2) :
    ∀ p ∈ mergeLoop l cur, p.1 ≤ p.2 := by
  induction l generalizing cur with
  | nil =>
    intro p hp
    rcases List.mem_singleton.mp hp with h
    exact h ▸ hc
  | cons q rest ih =>
    intro p hp
    by_cases h : q.1 > cur.2
    · rw [mergeLoop, if_pos h] at hp
      rcases List.mem_cons.mp hp with h2 | h2
      · exact h2 ▸ hc
      · exact ih (q.1, q.2) (fun r hr => hl r (List.mem_cons_of_mem q hr))
          (hl q (List.mem_cons_self q rest)) p h2
    · rw [mergeLoop, if_neg h] at hp
      exact ih (cur.1, max cur.2 q.2)
        (fun r hr => hl r (List.mem_cons_of_mem q hr))
        (le_trans hc (le_max_left _ _)) p hp

lemma mergeLoop_bounds (l : List (Int × Int)) (cur : Int × Int) (lo hi : Int)
    (hl : ∀ p ∈ l, lo ≤ p.1 ∧ p.2 ≤ hi) (hc1 : lo ≤ cur.1) (hc2 : cur.2 ≤ hi) :
    ∀ p ∈ mergeLoop l cur, lo ≤ p.1 ∧ p.2 ≤ hi := by
  induction l generalizing cur with
  | nil =>
    intro p hp
    rcases List.mem_singleton.mp hp with h
    exact h ▸ ⟨hc1, hc2⟩
  | cons q rest ih =>
    intro p hp
    by_cases h : q.1 > cur.2
    · rw [mergeLoop, if_pos h] at hp
      rcases List.mem_cons.mp hp with h2 | h2
      · exact h2 ▸ ⟨hc1, hc2⟩
      · exact ih (q.1, q.2) (fun r hr => hl r (List.mem_cons_of_mem q hr))
          (hl q (List.mem_cons_self q rest)).1
          (hl q (List.mem_cons_self q rest)).2 p h2
    · rw [mergeLoop, if_neg h] at hp
      exact ih (cur.1, max cur.2 q.2)
        (fun r hr => hl r (List.mem_cons_of_mem q hr)) hc1
        (max_le hc2 (hl q (List.mem_cons_self q rest)).2) p hp

lemma mergeLoop_covered (l : List (Int × Int)) (cur : Int × Int)
    (hs : ∀ p ∈ l, cur.1 ≤ p.1)
    (hp : List.Pairwise (fun a b : Int × Int => a.1 ≤ b.1) l) :
    covered (mergeLoop l cur) = Finset.Ico cur.1 cur.2 ∪ covered l := by
  induction l generalizing cur with
  | nil => simp [mergeLoop, covered_cons, covered]
  | cons q rest ih =>
    rcases List.pairwise_cons.mp hp with ⟨hq, hrest⟩
    by_cases h : q.1 > cur.2
    · rw [mergeLoop, if_pos h, covered_cons,
        ih (q.1, q.2) (fun p hpm => hq p hpm) hrest, covered_cons]
    · rw [mergeLoop, if_neg h,
        ih (cur.1, max cur.2 q.2)
          (fun p hpm => le_trans (hs q (List.mem_cons_self q rest)) (hq p hpm))
          hrest, covered_cons]
      have hc : (Finset.Ico cur.1 (max cur.2 q.2) : Finset Int)
          = Finset.Ico cur.1 cur.2 ∪ Finset.Ico q.1 q.2 := by
        have hcq : cur.1 ≤ q.1 := hs q (List.mem_cons_self q rest)
        have hqc : q.1 ≤ cur.2 := not_lt.mp h
        ext x
        simp only [Finset.mem_Ico, Finset.mem_union]
        omega
      rw [hc, Finset.union_assoc]

/-! ### `merge_intervals` invariants -/

lemma merge_intervals_eq (l : List (Int × Int)) :
    merge_intervals l = match List.insertionSort lexLe l with
      | [] => []
      | first :: rest => mergeLoop rest first := rfl

lemma lexLe_imp_fst_le (a b : Int × Int) (h : lexLe a b) : a.1 ≤ b.1 := by
  rcases h with h | ⟨h, _⟩
  · exact le_of_lt h
  · exact le_of_eq h

lemma sorted_head_rest (l : List (Int × Int)) (first : Int × Int)
    (rest : List (Int × Int))
    (hs : List.insertionSort lexLe l = first :: rest) :
    (∀ p ∈ rest, first.1 ≤ p.1) ∧
      List.Pairwise (fun a b : Int × Int => a.1 ≤ b.1) rest := by
  have h := List.sorted_insertionSort lexLe l
  rw [hs] at h
  rcases List.pairwise_cons.mp h with ⟨h1, h2⟩
  exact ⟨fun p hp => lexLe_imp_fst_le first p (h1 p hp),
    h2.imp (fun h => lexLe_imp_fst_le _ _ h)⟩

lemma merge_chain (l : List (Int × Int)) :
    List.Chain' (fun a b : Int × Int => a.2 < b.1) (merge_intervals l) := by
  rw [merge_intervals_eq]
  cases hs : List.insertionSort lexLe l with
  | nil => exact List.chain'_nil
  | cons first rest => exact mergeLoop_chain rest first

lemma merge_valid (l : List (Int × Int)) (hv : ∀ p ∈ l, p.1 ≤ p.2) :
    ∀ p ∈ merge_intervals l, p.1 ≤ p.2 := by
  rw [merge_intervals_eq]
  cases hs : List.insertionSort lexLe l with
  | nil => intro p hp; cases hp
  | cons first rest =>
    have hperm := List.perm_insertionSort lexLe l
    rw [hs] at hperm
    have hall : ∀ p ∈ first :: rest, p.1 ≤ p.2 :=
      fun p hp => hv p (hperm.mem_iff.mp hp)
    exact mergeLoop_valid rest first
      (fun p hp => hall p (List.mem_cons_of_mem first hp))
      (hall first (List.mem_cons_self first rest))

lemma merge_bounds (l : List (Int × Int)) (lo hi : Int)
    (hb : ∀ p ∈ l, lo ≤ p.1 ∧ p.2 ≤ hi) :
    ∀ p ∈ merge_intervals l, lo ≤ p.1 ∧ p.2 ≤ hi := by
  rw [merge_intervals_eq]
  cases hs : List.insertionSort lexLe l with
  | nil => intro p hp; cases hp
  | cons first rest =>
    have hperm := List.perm_insertionSort lexLe l
    rw [hs] at hperm
    have hall : ∀ p ∈ first :: rest, lo ≤ p.1 ∧ p.2 ≤ hi :=
      fun p hp => hb p (hperm.mem_iff.mp hp)
    exact mergeLoop_bounds rest first lo hi
      (fun p hp => hall p (List.mem_cons_of_mem first hp))
      (hall first (List.mem_cons_self first rest)).1
      (hall first (List.mem_cons_self first rest)).2

lemma merge_covered (l : List (Int × Int)) :
    covered (merge_intervals l) = covered l := by
  rw [merge_intervals_eq]
  cases hs : List.insertionSort lexLe l with
  | nil =>
    have hperm := List.perm_insertionSort lexLe l
    rw [hs] at hperm
    rw [List.Perm.eq_nil hperm.symm]
  | cons first rest =>
    have hperm := List.perm_insertionSort lexLe l
    rw [hs] at hperm
    rcases sorted_head_rest l first rest hs with ⟨h1, h2⟩
    rw [mergeLoop_covered rest first h1 h2, ← covered_cons,
      covered_eq_of_perm _ _ hperm]

lemma chain_pairwise (l : List (Int × Int))
    (hc : List.Chain' (fun a b : Int × Int => a.2 < b.1) l)
    (hv : ∀ p ∈ l, p.1 ≤ p.2) :
    List.Pairwise (fun a b : Int × Int => a.2 < b.1) l := by
  induction l with
  | nil => exact List.Pairwise.nil
  | cons a rest ih =>
    rcases List.chain'_cons'.mp hc with ⟨hhead, hrest⟩
    have hp : List.Pairwise (fun a b : Int × Int => a.2 < b.1) rest :=
      ih hrest (fun p hp => hv p (List.mem_cons_of_mem a hp))
    refine List.pairwise_cons.mpr ⟨?_, hp⟩
    intro b hb
    cases rest with
    | nil => cases hb
    | cons c m =>
      have hac : a.2 < c.1 := hhead c rfl
      rcases List.mem_cons.mp hb with h | h
      · exact h ▸ hac
      · have hcb : c.2 < b.1 := (List.pairwise_cons.mp hp).1 b h
        have hcv : c.1 ≤ c.2 :=
          hv c (List.mem_cons_of_mem a (List.mem_cons_self c m))
        omega

lemma merge_pairwise (l : List (Int × Int)) (hv : ∀ p ∈ l, p.1 ≤ p.2) :
    List.Pairwise (fun a b : Int × Int => a.2 < b.1) (merge_intervals l) :=
  chain_pairwise _ (merge_chain l) (merge_valid l hv)

lemma merge_sorted (l : List (Int × Int)) (hv : ∀ p ∈ l, p.1 ≤ p.2) :
    List.Sorted lexLe (merge_intervals l) := by
  have hva := merge_valid l hv
  have hp := merge_pairwise l hv
  exact List.Pairwise.imp_of_mem
    (fun {a b} ha _ h => Or.inl (lt_of_le_of_lt (hva a ha) h)) hp

lemma sumLen_cons (p : Int × Int) (l : List (Int × Int)) :
    sumLen (p :: l) = (p.2 - p.1) + sumLen l := rfl

lemma sumLen_nonneg (l : List (Int × Int)) (hv : ∀ p ∈ l, p.1 ≤ p.2) :
    0 ≤ sumLen l := by
  induction l with
  | nil => exact le_refl 0
  | cons p rest ih =>
    rw [sumLen_cons]
    have h1 : p.1 ≤ p.2 := hv p (List.mem_cons_self p rest)
    have h2 : 0 ≤ sumLen rest :=
      ih (fun q hq => hv q (List.mem_cons_of_mem p hq))
    omega

lemma sumLen_le_of_pairwise (l : List (Int × Int)) (lo hi : Int)
    (hp : List.Pairwise (fun a b : Int × Int => a.2 < b.1) l)
    (hb : ∀ p ∈ l, lo ≤ p.1 ∧ p.2 ≤ hi) (hlh : lo ≤ hi) :
    sumLen l ≤ hi - lo := by
  induction l generalizing lo with
  | nil => show (0 : Int) ≤ hi - lo; omega
  | cons a rest ih =>
    rcases List.pairwise_cons.mp hp with ⟨hhead, hrest⟩
    have hba := hb a (List.mem_cons_self a rest)
    have hr : sumLen rest ≤ hi - a.2 :=
      ih a.2 hrest
        (fun p hpm => ⟨le_of_lt (hhead p hpm),
          (hb p (List.mem_cons_of_mem a hpm)).2⟩)
        hba.2
    rw [sumLen_cons]
    omega

lemma covered_card_of_pairwise (l : List (Int × Int))
    (hp : List.Pairwise (fun a b : Int × Int => a.2 < b.1) l)
    (hv : ∀ p ∈ l, p.1 ≤ p.2) :
    ((covered l).card : Int) = sumLen l := by
  induction l with
  | nil => rfl
  | cons a rest ih =>
    rcases List.pairwise_cons.mp hp with ⟨hhead, hrest⟩
    have hdisj : Disjoint (Finset.Ico a.1 a.2) (covered rest) := by
      rw [Finset.disjoint_left]
      intro x hx hxr
      have hx2 : x < a.2 := (Finset.mem_Ico.mp hx).2
      rcases (mem_covered x rest).mp hxr with ⟨p, hpm, h1, _⟩
      have := hhead p hpm
      omega
    rw [covered_cons, Finset.card_union_of_disjoint hdisj, sumLen_cons,
      ← ih hrest (fun q hq => hv q (List.mem_cons_of_mem a hq))]
    have hva : a.1 ≤ a.2 := hv a (List.mem_cons_self a rest)
    rw [Int.card_Ico]
    push_cast [Int.toNat_of_nonneg (by omega : (0 : Int) ≤ a.2 - a.1)]
    ring

lemma mergeLoop_pos (l : List (Int × Int)) (cur : Int × Int)
    (hl : ∀ p ∈ l, p.1 < p.2) (hc : cur.1 < cur.2) :
    ∀ p ∈ mergeLoop l cur, p.1 < p.2 := by
  induction l generalizing cur with
  | nil =>
    intro p hp
    rcases List.mem_singleton.mp hp with h
    exact h ▸ hc
  | cons q rest ih =>
    intro p hp
    by_cases h : q.1 > cur.2
    · rw [mergeLoop, if_pos h] at hp
      rcases List.mem_cons.mp hp with h2 | h2
      · exact h2 ▸ hc
      · exact ih (q.1, q.2) (fun r hr => hl r (List.mem_cons_of_mem q hr))
          (hl q (List.mem_cons_self q rest)) p h2
    · rw [mergeLoop, if_neg h] at hp
      exact ih (cur.1, max cur.2 q.2)
        (fun r hr => hl r (List.mem_cons_of_mem q hr))
        (lt_of_lt_of_le hc (le_max_left _ _)) p hp

lemma merge_pos (l : List (Int × Int)) (hv : ∀ p ∈ l, p.1 < p.2) :
    ∀ p ∈ merge_intervals l, p.1 < p.2 := by
  rw [merge_intervals_eq]
  cases hs : List.insertionSort lexLe l with
  | nil => intro p hp; cases hp
  | cons first rest =>
    have hperm := List.perm_insertionSort lexLe l
    rw [hs] at hperm
    have hall : ∀ p ∈ first :: rest, p.1 < p.2 :=
      fun p hp => hv p (hperm.mem_iff.mp hp)
    exact mergeLoop_pos rest first
      (fun p hp => hall p (List.mem_cons_of_mem first hp))
      (hall first (List.mem_cons_self first rest))

/-- On a list that is already a disjoint chain, the sweep is the identity. -/
lemma mergeLoop_of_chain (rest : List (Int × Int)) (c : Int × Int)
    (hc : List.Chain' (fun a b : Int × Int => a.2 < b.1) (c :: rest)) :
    mergeLoop rest c = c :: rest := by
  induction rest generalizing c with
  | nil => rfl
  | cons q rest2 ih =>
    rcases List.chain'_cons.mp hc with ⟨h1, h2⟩
    rw [mergeLoop, if_pos h1, ih q h2]

/-- Minimal cardinality: a pairwise-disjoint list of nonempty intervals is a
shortest list covering its union. -/
lemma length_le_of_covered_eq (out m : List (Int × Int))
    (hp : List.Pairwise (fun a b : Int × Int => a.2 < b.1) out)
    (hne : ∀ p ∈ out, p.1 < p.2)
    (hcov : covered m = covered out) :
    out.length ≤ m.length := by
  have hpt : ∀ i : Fin out.length, ∃ j : Fin m.length,
      (m.get j).1 ≤ (out.get i).1 ∧ (out.get i).1 < (m.get j).2 := by
    intro i
    have hmem : (out.get i).1 ∈ covered out :=
      (mem_covered _ _).mpr ⟨out.get i, List.get_mem out i.1 i.2,
        le_refl _, hne _ (List.get_mem out i.1 i.2)⟩
    rw [← hcov] at hmem
    rcases (mem_covered _ _).mp hmem with ⟨p, hpm, h1, h2⟩
    rcases List.mem_iff_get.mp hpm with ⟨j, hj⟩
    exact ⟨j, by rw [hj]; exact ⟨h1, h2⟩⟩
  choose f hf using hpt
  have hmono := List.pairwise_iff_get.mp hp
  have haux : ∀ i k : Fin out.length, i < k → f i ≠ f k := by
    intro i k hik heq
    -- the gap point: the end of interval `i`, uncovered yet inside `m.get (f i)`
    have hgap : (out.get i).2 ∈ covered out := by
      rw [← hcov]
      refine (mem_covered _ _).mpr ⟨m.get (f i), List.get_mem m _ _, ?_, ?_⟩
      · exact le_trans (hf i).1 (le_of_lt (hne _ (List.get_mem out i.1 i.2)))
      · have h2 := (hf k).2
        rw [← heq] at h2
        exact lt_trans (hmono i k hik) h2
    rcases (mem_covered _ _).mp hgap with ⟨p, hpm, h1, h2⟩
    rcases List.mem_iff_get.mp hpm with ⟨j, hj⟩
    rw [← hj] at h1 h2
    have hni : (out.get i).1 < (out.get i).2 := hne _ (List.get_mem out i.1 i.2)
    rcases lt_trichotomy j i with hj1 | hj1 | hj1
    · have := hmono j i hj1
      omega
    · rw [hj1] at h2
      omega
    · have := hmono i j hj1
      omega
  have hinj : Function.Injective f := by
    intro i k hik
    by_contra hneq
    rcases Ne.lt_or_lt hneq with h | h
    · exact haux i k h hik
    · exact haux k i h hik.symm
  have := Fintype.card_le_of_injective f hinj
  simpa using this

/-! ### Station-level helpers -/

lemma reportsFor_subset (reps : List (Int × List (Int × Int × Bool)))
    (cid : Int) (r : Int × Int × Bool) (hr : r ∈ reportsFor reps cid) :
    ∃ cr ∈ reps, r ∈ cr.2 := by
  unfold reportsFor at hr
  cases hfind : reps.find? (fun p => p.1 == cid) with
  | none => rw [hfind] at hr; cases hr
  | some p =>
    rw [hfind] at hr
    exact ⟨p, List.mem_of_find?_eq_some hfind, hr⟩

lemma stationReports_valid (ch : List Int)
    (reps : List (Int × List (Int × Int × Bool)))
    (hv : ∀ cr ∈ reps, ∀ r ∈ cr.2, r.1 ≤ r.2.1) :
    ∀ r ∈ stationReports ch reps, r.1 ≤ r.2.1 := by
  intro r hr
  rcases List.mem_flatMap.mp hr with ⟨cid, _, hrc⟩
  rcases reportsFor_subset reps cid r hrc with ⟨cr, hcr, hrcr⟩
  exact hv cr hcr r hrcr

lemma allEntries_valid (ch : List Int)
    (reps : List (Int × List (Int × Int × Bool)))
    (hv : ∀ cr ∈ reps, ∀ r ∈ cr.2, r.1 ≤ r.2.1) :
    ∀ p ∈ allEntries ch reps, p.1 ≤ p.2 := by
  intro p hp
  rcases List.mem_map.mp hp with ⟨r, hr, he⟩
  exact he ▸ stationReports_valid ch reps hv r hr

lemma upIntervals_subset (ch : List Int)
    (reps : List (Int × List (Int × Int × Bool))) :
    ∀ p ∈ upIntervals ch reps, p ∈ allEntries ch reps := by
  intro p hp
  rcases List.mem_map.mp hp with ⟨r, hr, he⟩
  exact he ▸ List.mem_map.mpr ⟨r, List.mem_of_mem_filter hr, rfl⟩

lemma upIntervals_valid (ch : List Int)
    (reps : List (Int × List (Int × Int × Bool)))
    (hv : ∀ cr ∈ reps, ∀ r ∈ cr.2, r.1 ≤ r.2.1) :
    ∀ p ∈ upIntervals ch reps, p.1 ≤ p.2 :=
  fun p hp => allEntries_valid ch reps hv p (upIntervals_subset ch reps p hp)

lemma stationUptime_of_nil (ch : List Int)
    (reps : List (Int × List (Int × Int × Bool)))
    (h : allEntries ch reps = []) : stationUptime ch reps = 0 := by
  rw [stationUptime, if_pos h]

lemma stationUptime_of_nonpos (ch : List Int)
    (reps : List (Int × List (Int × Int × Bool)))
    (hne : allEntries ch reps ≠ [])
    (h : maxEnd (allEntries ch reps) - minStart (allEntries ch reps) ≤ 0) :
    stationUptime ch reps = 0 := by
  rw [stationUptime, if_neg hne]
  simp only [if_pos h]

lemma stationUptime_of_pos (ch : List Int)
    (reps : List (Int × List (Int × Int × Bool)))
    (hne : allEntries ch reps ≠ [])
    (h : 0 < maxEnd (allEntries ch reps) - minStart (allEntries ch reps)) :
    stationUptime ch reps =
      (if Int.fdiv (sumLen (merge_intervals (upIntervals ch reps)) * 100)
            (maxEnd (allEntries ch reps) - minStart (allEntries ch reps)) < 0
        then 0
        else if Int.fdiv (sumLen (merge_intervals (upIntervals ch reps)) * 100)
            (maxEnd (allEntries ch reps) - minStart (allEntries ch reps)) > 100
        then 100
        else Int.fdiv (sumLen (merge_intervals (upIntervals ch reps)) * 100)
          (maxEnd (allEntries ch reps) - minStart (allEntries ch reps))) := by
  rw [stationUptime, if_neg hne]
  simp only [if_neg (not_le.mpr h)]

lemma stationUptime_bounds (ch : List Int)
    (reps : List (Int × List (Int × Int × Bool))) :
    0 ≤ stationUptime ch reps ∧ stationUptime ch reps ≤ 100 := by
  by_cases hne : allEntries ch reps = []
  · rw [stationUptime_of_nil ch reps hne]; omega
  · by_cases hsp :
        maxEnd (allEntries ch reps) - minStart (allEntries ch reps) ≤ 0
    · rw [stationUptime_of_nonpos ch reps hne hsp]; omega
    · rw [stationUptime_of_pos ch reps hne (not_le.mp hsp)]
      split_ifs <;> omega

lemma entries_bounds (ch : List Int)
    (reps : List (Int × List (Int × Int × Bool))) :
    ∀ p ∈ allEntries ch reps,
      minStart (allEntries ch reps) ≤ p.1 ∧ p.2 ≤ maxEnd (allEntries ch reps) :=
  fun p hp => ⟨minStart_le _ p hp, le_maxEnd _ p hp⟩

lemma span_nonneg (ch : List Int)
    (reps : List (Int × List (Int × Int × Bool)))
    (hv : ∀ cr ∈ reps, ∀ r ∈ cr.2, r.1 ≤ r.2.1)
    (hne : allEntries ch reps ≠ []) :
    minStart (allEntries ch reps) ≤ maxEnd (allEntries ch reps) := by
  cases he : allEntries ch reps with
  | nil => exact absurd he hne
  | cons p rest =>
    have hp : p ∈ allEntries ch reps := he ▸ List.mem_cons_self p rest
    have h1 := minStart_le _ p hp
    have h2 := le_maxEnd _ p hp
    have h3 := allEntries_valid ch reps hv p hp
    rw [he] at h1 h2
    omega

/-- Core invariant: the merged up-time of a station is nonnegative and at
most the span. -/
lemma upTime_le_span (ch : List Int)
    (reps : List (Int × List (Int × Int × Bool)))
    (hv : ∀ cr ∈ reps, ∀ r ∈ cr.2, r.1 ≤ r.2.1)
    (hne : allEntries ch reps ≠ []) :
    0 ≤ sumLen (merge_intervals (upIntervals ch reps)) ∧
      sumLen (merge_intervals (upIntervals ch reps)) ≤
        maxEnd (allEntries ch reps) - minStart (allEntries ch reps) := by
  have hvu := upIntervals_valid ch reps hv
  have hbu : ∀ p ∈ upIntervals ch reps,
      minStart (allEntries ch reps) ≤ p.1 ∧ p.2 ≤ maxEnd (allEntries ch reps) :=
    fun p hp => entries_bounds ch reps p (upIntervals_subset ch reps p hp)
  constructor
  · exact sumLen_nonneg _ (merge_valid _ hvu)
  · exact sumLen_le_of_pairwise _ _ _ (merge_pairwise _ hvu)
      (merge_bounds _ _ _ hbu) (span_nonneg ch reps hv hne)

lemma fdiv_pct_bounds (up span : Int) (hspan : 0 < span) (h0 : 0 ≤ up)
    (h1 : up ≤ span) :
    0 ≤ Int.fdiv (up * 100) span ∧ Int.fdiv (up * 100) span ≤ 100 := by
  rw [Int.fdiv_eq_ediv _ (le_of_lt hspan)]
  constructor
  · exact Int.ediv_nonneg (by omega) (le_of_lt hspan)
  · have hm : up * 100 ≤ span * 100 := by omega
    have h2 : up * 100 / span ≤ span * 100 / span := Int.ediv_le_ediv hspan hm
    have h3 : span * 100 / span = 100 := by
      rw [mul_comm]
      exact Int.mul_ediv_cancel 100 (ne_of_gt hspan)
    omega

lemma mem_allEntries (ch : List Int)
    (reps : List (Int × List (Int × Int × Bool))) (cid : Int)
    (r : Int × Int × Bool) (hc : cid ∈ ch) (hr : r ∈ reportsFor reps cid) :
    (r.1, r.2.1) ∈ allEntries ch reps :=
  List.mem_map.mpr ⟨r, List.mem_flatMap.mpr ⟨cid, hc, hr⟩, rfl⟩

lemma mem_upIntervals (ch : List Int)
    (reps : List (Int × List (Int × Int × Bool))) (cid : Int)
    (r : Int × Int × Bool) (hc : cid ∈ ch) (hr : r ∈ reportsFor reps cid)
    (hup : r.2.2 = true) :
    (r.1, r.2.1) ∈ upIntervals ch reps :=
  List.mem_map.mpr ⟨r,
    List.mem_filter.mpr ⟨List.mem_flatMap.mpr ⟨cid, hc, hr⟩, hup⟩, rfl⟩

lemma output_keys (sc : List (Int × List Int))
    (reps : List (Int × List (Int × Int × Bool))) :
    (compute_station_uptimes sc reps).map Prod.fst = stationKeys sc := by
  rw [compute_station_uptimes, List.map_map]
  exact List.map_id _

/-! ### Sanity checks on the spec scenarios -/

example : merge_intervals [((0 : Int), 10), (10, 20)] = [(0, 20)] := by decide
example : merge_intervals [((0 : Int), 10), (5, 15), (15, 20)] = [(0, 20)] := by decide
example : merge_intervals [((10 : Int), 20), (0, 5), (5, 10), (30, 40)] =
    [(0, 20), (30, 40)] := by decide
example : stationUptime [7] [(7, [(0, 10, true), (10, 20, false), (20, 40, true), (40, 50, false)])] = 60 := by decide
example : stationUptime [7] [(7, [(25000, 75000, false)])] = 0 := by decide
example : compute_station_uptimes [(1, [1001, 1002])]
    [(1001, [(0, 50000, true)]), (1002, [(50000, 100000, true)])] = [(1, 100)] := by
  decide

/-! ### The claims -/

/-- Claim C3: `merge_intervals` merges two intervals that touch exactly at a
boundary into one (the sweep closes the current interval only on strict
`>`), in particular `merge [(0,10),(10,20)] = [(0,20)]`, and the empty input
yields the empty output. -/
theorem claim_C3_touching_merge (a b c : Int) (h1 : a ≤ b) (h2 : b ≤ c) :
    merge_intervals [(a, b), (b, c)] = [(a, c)] ∧
    merge_intervals ([] : List (Int × Int)) = [] ∧
    merge_intervals [((0 : Int), 10), (10, 20)] = [(0, 20)] := by
  refine ⟨?_, rfl, by decide⟩
  have hord : lexLe (a, b) (b, c) := by
    rcases lt_or_eq_of_le h1 with h | h
    · exact Or.inl h
    · exact Or.inr ⟨h, h ▸ h2⟩
  have hsort : List.insertionSort lexLe [(a, b), (b, c)] = [(a, b), (b, c)] := by
    simp only [List.insertionSort, List.orderedInsert]
    rw [if_pos hord]
  rw [merge_intervals_eq, hsort]
  show mergeLoop [(b, c)] (a, b) = [(a, c)]
  rw [mergeLoop, if_neg (lt_irrefl b), mergeLoop, max_eq_right h2]

theorem claim_C3_touching_merge_witness :
    merge_intervals [((0 : Int), 10), (10, 20)] = [(0, 20)] ∧
    merge_intervals ([] : List (Int × Int)) = [] ∧
    merge_intervals [((0 : Int), 10), (10, 20)] = [(0, 20)] :=
  claim_C3_touching_merge 0 10 20 (by decide) (by decide)

/-- Claim C4: for a station with at least one report, the observation window
is the minimum start and maximum end over all of its reports regardless of
the up flag (`minStart` is attained on and bounds every report, likewise
`maxEnd`), a nonpositive span yields 0, and a station whose reports are all
down still yields 0 through a real span, not an error. -/
theorem claim_C4_window_over_all_reports (ch : List Int)
    (reps : List (Int × List (Int × Int × Bool)))
    (hne : allEntries ch reps ≠ []) :
    (minStart (allEntries ch reps) ∈ (allEntries ch reps).map Prod.fst ∧
      maxEnd (allEntries ch reps) ∈ (allEntries ch reps).map Prod.snd ∧
      ∀ p ∈ allEntries ch reps,
        minStart (allEntries ch reps) ≤ p.1 ∧
          p.2 ≤ maxEnd (allEntries ch reps)) ∧
    (maxEnd (allEntries ch reps) - minStart (allEntries ch reps) ≤ 0 →
      stationUptime ch reps = 0) ∧
    ((∀ r ∈ stationReports ch reps, r.2.2 = false) →
      stationUptime ch reps = 0) := by
  refine ⟨⟨minStart_mem _ hne, maxEnd_mem _ hne, entries_bounds ch reps⟩,
    fun h => stationUptime_of_nonpos ch reps hne h, fun hdown => ?_⟩
  have hup : upIntervals ch reps = [] := by
    rw [upIntervals, List.filter_eq_nil_iff.mpr
      (fun r hr => by rw [hdown r hr]; exact Bool.false_ne_true)]
    rfl
  by_cases hsp : maxEnd (allEntries ch reps) - minStart (allEntries ch reps) ≤ 0
  · exact stationUptime_of_nonpos ch reps hne hsp
  · rw [stationUptime_of_pos ch reps hne (not_le.mp hsp), hup]
    norm_num [merge_intervals, sumLen, Int.zero_fdiv]

theorem claim_C4_window_over_all_reports_witness :
    (minStart (allEntries [7] [(7, [(25000, 75000, false)])]) ∈
        (allEntries [7] [(7, [(25000, 75000, false)])]).map Prod.fst ∧
      maxEnd (allEntries [7] [(7, [(25000, 75000, false)])]) ∈
        (allEntries [7] [(7, [(25000, 75000, false)])]).map Prod.snd ∧
      ∀ p ∈ allEntries [7] [(7, [(25000, 75000, false)])],
        minStart (allEntries [7] [(7, [(25000, 75000, false)])]) ≤ p.1 ∧
          p.2 ≤ maxEnd (allEntries [7] [(7, [(25000, 75000, false)])])) ∧
    (maxEnd (allEntries [7] [(7, [(25000, 75000, false)])]) -
        minStart (allEntries [7] [(7, [(25000, 75000, false)])]) ≤ 0 →
      stationUptime [7] [(7, [(25000, 75000, false)])] = 0) ∧
    ((∀ r ∈ stationReports [7] [(7, [(25000, 75000, false)])], r.2.2 = false) →
      stationUptime [7] [(7, [(25000, 75000, false)])] = 0) :=
  claim_C4_window_over_all_reports [7] [(7, [(25000, 75000, false)])]
    (by decide)

/-- Claim C5: the mapping returned by `compute_station_uptimes` has every
declared station id exactly once and no other keys, and a declared station
with no reports is mapped to 0 (not omitted, not an error). -/
theorem claim_C5_every_station_once (sc : List (Int × List Int))
    (reps : List (Int × List (Int × Int × Bool))) :
    ((compute_station_uptimes sc reps).map Prod.fst).Nodup ∧
    (∀ sid : Int, sid ∈ (compute_station_uptimes sc reps).map Prod.fst ↔
      sid ∈ sc.map Prod.fst) ∧
    (∀ sid : Int, sid ∈ sc.map Prod.fst →
      allEntries (chargersFor sc sid) reps = [] →
      (sid, 0) ∈ compute_station_uptimes sc reps) := by
  have hperm := List.perm_insertionSort (fun a b : Int => a ≤ b)
    (sc.map Prod.fst).dedup
  refine ⟨?_, fun sid => ?_, fun sid hmem hnil => ?_⟩
  · rw [output_keys]
    exact hperm.nodup_iff.mpr (List.nodup_dedup _)
  · rw [output_keys, stationKeys, hperm.mem_iff, List.mem_dedup]
  · have hkey : sid ∈ stationKeys sc := by
      rw [stationKeys, hperm.mem_iff, List.mem_dedup]
      exact hmem
    have hout : (sid, stationUptime (chargersFor sc sid) reps) ∈
        compute_station_uptimes sc reps :=
      List.mem_map.mpr ⟨sid, hkey, rfl⟩
    rw [stationUptime_of_nil _ _ hnil] at hout
    exact hout

theorem claim_C5_every_station_once_witness :
    ((compute_station_uptimes [(3, [7])] []).map Prod.fst).Nodup ∧
    (∀ sid : Int, sid ∈ (compute_station_uptimes [(3, [7])] []).map Prod.fst ↔
      sid ∈ [((3 : Int), [(7 : Int)])].map Prod.fst) ∧
    (∀ sid : Int, sid ∈ [((3 : Int), [(7 : Int)])].map Prod.fst →
      allEntries (chargersFor [(3, [7])] sid) [] = [] →
      (sid, 0) ∈ compute_station_uptimes [(3, [7])] []) :=
  claim_C5_every_station_once [(3, [7])] []

/-- Claim C6: for valid reports, the merged up-time of a station is
nonnegative and at most the span, so the computed percentage lies in
[0, 100] before clamping and the clamp branches are never taken: the stored
value equals the unclamped floor quotient. -/
theorem claim_C6_uptime_le_span (ch : List Int)
    (reps : List (Int × List (Int × Int × Bool)))
    (hv : ∀ cr ∈ reps, ∀ r ∈ cr.2, r.1 ≤ r.2.1)
    (hne : allEntries ch reps ≠ []) :
    0 ≤ sumLen (merge_intervals (upIntervals ch reps)) ∧
    sumLen (merge_intervals (upIntervals ch reps)) ≤
      maxEnd (allEntries ch reps) - minStart (allEntries ch reps) ∧
    (0 < maxEnd (allEntries ch reps) - minStart (allEntries ch reps) →
      0 ≤ Int.fdiv (sumLen (merge_intervals (upIntervals ch reps)) * 100)
          (maxEnd (allEntries ch reps) - minStart (allEntries ch reps)) ∧
      Int.fdiv (sumLen (merge_intervals (upIntervals ch reps)) * 100)
          (maxEnd (allEntries ch reps) - minStart (allEntries ch reps)) ≤ 100 ∧
      stationUptime ch reps =
        Int.fdiv (sumLen (merge_intervals (upIntervals ch reps)) * 100)
          (maxEnd (allEntries ch reps) - minStart (allEntries ch reps))) := by
  rcases upTime_le_span ch reps hv hne with ⟨h0, h1⟩
  refine ⟨h0, h1, fun hsp => ?_⟩
  rcases fdiv_pct_bounds _ _ hsp h0 h1 with ⟨hb0, hb1⟩
  refine ⟨hb0, hb1, ?_⟩
  rw [stationUptime_of_pos ch reps hne hsp, if_neg (not_lt.mpr hb0),
    if_neg (not_lt.mpr hb1)]

theorem claim_C6_uptime_le_span_witness :
    0 ≤ sumLen (merge_intervals
        (upIntervals [7] [(7, [(0, 10, true), (10, 20, false)])])) ∧
    sumLen (merge_intervals
        (upIntervals [7] [(7, [(0, 10, true), (10, 20, false)])])) ≤
      maxEnd (allEntries [7] [(7, [(0, 10, true), (10, 20, false)])]) -
        minStart (allEntries [7] [(7, [(0, 10, true), (10, 20, false)])]) ∧
    (0 < maxEnd (allEntries [7] [(7, [(0, 10, true), (10, 20, false)])]) -
        minStart (allEntries [7] [(7, [(0, 10, true), (10, 20, false)])]) →
      0 ≤ Int.fdiv (sumLen (merge_intervals
            (upIntervals [7] [(7, [(0, 10, true), (10, 20, false)])])) * 100)
          (maxEnd (allEntries [7] [(7, [(0, 10, true), (10, 20, false)])]) -
            minStart (allEntries [7] [(7, [(0, 10, true), (10, 20, false)])])) ∧
      Int.fdiv (sumLen (merge_intervals
            (upIntervals [7] [(7, [(0, 10, true), (10, 20, false)])])) * 100)
          (maxEnd (allEntries [7] [(7, [(0, 10, true), (10, 20, false)])]) -
            minStart (allEntries [7] [(7, [(0, 10, true), (10, 20, false)])])) ≤
        100 ∧
      stationUptime [7] [(7, [(0, 10, true), (10, 20, false)])] =
        Int.fdiv (sumLen (merge_intervals
            (upIntervals [7] [(7, [(0, 10, true), (10, 20, false)])])) * 100)
          (maxEnd (allEntries [7] [(7, [(0, 10, true), (10, 20, false)])]) -
            minStart (allEntries [7] [(7, [(0, 10, true), (10, 20, false)])]))) :=
  claim_C6_uptime_le_span [7] [(7, [(0, 10, true), (10, 20, false)])]
    (by decide) (by decide)

/-- Claim C9: a charger assigned to several stations contributes its reports
to every one of them: each of its report intervals is in each such
station's entry list (hence its span) and, when flagged up, in each
station's up-interval list. -/
theorem claim_C9_shared_charger (sc : List (Int × List Int))
    (reps : List (Int × List (Int × Int × Bool))) (sid₁ sid₂ cid : Int)
    (r : Int × Int × Bool) (h1 : cid ∈ chargersFor sc sid₁)
    (h2 : cid ∈ chargersFor sc sid₂) (hr : r ∈ reportsFor reps cid) :
    ((r.1, r.2.1) ∈ allEntries (chargersFor sc sid₁) reps ∧
      (r.1, r.2.1) ∈ allEntries (chargersFor sc sid₂) reps) ∧
    (r.2.2 = true →
      (r.1, r.2.1) ∈ upIntervals (chargersFor sc sid₁) reps ∧
      (r.1, r.2.1) ∈ upIntervals (chargersFor sc sid₂) reps) :=
  ⟨⟨mem_allEntries _ reps cid r h1 hr, mem_allEntries _ reps cid r h2 hr⟩,
    fun hup => ⟨mem_upIntervals _ reps cid r h1 hr hup,
      mem_upIntervals _ reps cid r h2 hr hup⟩⟩

theorem claim_C9_shared_charger_witness :
    (((0 : Int), (5 : Int)) ∈
        allEntries (chargersFor [(1, [7]), (2, [7])] 1) [(7, [(0, 5, true)])] ∧
      ((0 : Int), (5 : Int)) ∈
        allEntries (chargersFor [(1, [7]), (2, [7])] 2) [(7, [(0, 5, true)])]) ∧
    (true = true →
      ((0 : Int), (5 : Int)) ∈
        upIntervals (chargersFor [(1, [7]), (2, [7])] 1) [(7, [(0, 5, true)])] ∧
      ((0 : Int), (5 : Int)) ∈
        upIntervals (chargersFor [(1, [7]), (2, [7])] 2)
          [(7, [(0, 5, true)])]) :=
  claim_C9_shared_charger [(1, [7]), (2, [7])] [(7, [(0, 5, true)])] 1 2 7
    (0, 5, true) (by decide) (by decide) (by decide)

/-- Claim C10: `compute_station_uptimes` is total on arbitrary integer
reports (the embedding is a total function) and every returned percentage
lies in [0, 100], with no validity precondition: division happens only with
a positive span and the result is clamped on both sides. -/
theorem claim_C10_always_bounded (sc : List (Int × List Int))
    (reps : List (Int × List (Int × Int × Bool))) :
    ∀ q ∈ compute_station_uptimes sc reps, 0 ≤ q.2 ∧ q.2 ≤ 100 := by
  intro q hq
  rcases List.mem_map.mp hq with ⟨sid, _, he⟩
  rw [← he]
  exact stationUptime_bounds _ _

theorem claim_C10_always_bounded_witness :
    0 ≤ ((1 : Int), (0 : Int)).2 ∧ ((1 : Int), (0 : Int)).2 ≤ 100 :=
  claim_C10_always_bounded [(1, [5])] [(5, [(9, 2, true)])] (1, 0) (by decide)

/-- Claim C1: for valid inputs, every declared station's stored value is
`stationUptime` of its chargers; a station with at least one report and
positive span gets exactly the floor quotient `(up_time * 100) fdiv span`
(floor division, numerator multiplied first); and every returned percentage
is in [0, 100]. -/
theorem claim_C1_floor_percentage (sc : List (Int × List Int))
    (reps : List (Int × List (Int × Int × Bool)))
    (hv : ∀ cr ∈ reps, ∀ r ∈ cr.2, r.1 ≤ r.2.1) :
    (∀ sid ∈ stationKeys sc,
      (sid, stationUptime (chargersFor sc sid) reps) ∈
        compute_station_uptimes sc reps) ∧
    (∀ sid : Int, allEntries (chargersFor sc sid) reps ≠ [] →
      0 < maxEnd (allEntries (chargersFor sc sid) reps) -
          minStart (allEntries (chargersFor sc sid) reps) →
      stationUptime (chargersFor sc sid) reps =
        Int.fdiv
          (sumLen (merge_intervals (upIntervals (chargersFor sc sid) reps)) *
            100)
          (maxEnd (allEntries (chargersFor sc sid) reps) -
            minStart (allEntries (chargersFor sc sid) reps))) ∧
    (∀ q ∈ compute_station_uptimes sc reps, 0 ≤ q.2 ∧ q.2 ≤ 100) := by
  refine ⟨fun sid hsid => List.mem_map.mpr ⟨sid, hsid, rfl⟩,
    fun sid hne hsp => ?_, fun q hq => ?_⟩
  · rcases upTime_le_span (chargersFor sc sid) reps hv hne with ⟨h0, h1⟩
    rcases fdiv_pct_bounds _ _ hsp h0 h1 with ⟨hb0, hb1⟩
    rw [stationUptime_of_pos _ reps hne hsp, if_neg (not_lt.mpr hb0),
      if_neg (not_lt.mpr hb1)]
  · rcases List.mem_map.mp hq with ⟨sid, _, he⟩
    rw [← he]
    exact stationUptime_bounds _ _

theorem claim_C1_floor_percentage_witness :
    (∀ sid ∈ stationKeys [(1, [7])],
      (sid, stationUptime (chargersFor [(1, [7])] sid)
          [(7, [(0, 10, true), (10, 30, false)])]) ∈
        compute_station_uptimes [(1, [7])]
          [(7, [(0, 10, true), (10, 30, false)])]) ∧
    (∀ sid : Int,
      allEntries (chargersFor [(1, [7])] sid)
          [(7, [(0, 10, true), (10, 30, false)])] ≠ [] →
      0 < maxEnd (allEntries (chargersFor [(1, [7])] sid)
            [(7, [(0, 10, true), (10, 30, false)])]) -
          minStart (allEntries (chargersFor [(1, [7])] sid)
            [(7, [(0, 10, true), (10, 30, false)])]) →
      stationUptime (chargersFor [(1, [7])] sid)
          [(7, [(0, 10, true), (10, 30, false)])] =
        Int.fdiv
          (sumLen (merge_intervals (upIntervals (chargersFor [(1, [7])] sid)
              [(7, [(0, 10, true), (10, 30, false)])])) * 100)
          (maxEnd (allEntries (chargersFor [(1, [7])] sid)
              [(7, [(0, 10, true), (10, 30, false)])]) -
            minStart (allEntries (chargersFor [(1, [7])] sid)
              [(7, [(0, 10, true), (10, 30, false)])]))) ∧
    (∀ q ∈ compute_station_uptimes [(1, [7])]
        [(7, [(0, 10, true), (10, 30, false)])], 0 ≤ q.2 ∧ q.2 ≤ 100) :=
  claim_C1_floor_percentage [(1, [7])] [(7, [(0, 10, true), (10, 30, false)])]
    (by decide)

/-- Claim C7: `merge_intervals` is idempotent on lists of intervals with
`start ≤ end`. -/
theorem claim_C7_merge_idempotent (l : List (Int × Int))
    (hv : ∀ p ∈ l, p.1 ≤ p.2) :
    merge_intervals (merge_intervals l) = merge_intervals l := by
  have hs : List.Sorted lexLe (merge_intervals l) := merge_sorted l hv
  have hfix : List.insertionSort lexLe (merge_intervals l) = merge_intervals l :=
    List.Sorted.insertionSort_eq hs
  rw [merge_intervals_eq (merge_intervals l), hfix]
  cases hml : merge_intervals l with
  | nil => rfl
  | cons a rest => exact mergeLoop_of_chain rest a (hml ▸ merge_chain l)

theorem claim_C7_merge_idempotent_witness :
    merge_intervals (merge_intervals [((0 : Int), 5), (3, 9), (20, 25)]) =
      merge_intervals [((0 : Int), 5), (3, 9), (20, 25)] :=
  claim_C7_merge_idempotent [((0 : Int), 5), (3, 9), (20, 25)] (by decide)

lemma stationReports_perm (ch : List Int)
    (r₁ r₂ : List (Int × List (Int × Int × Bool)))
    (h : ∀ cid : Int, List.Perm (reportsFor r₁ cid) (reportsFor r₂ cid)) :
    List.Perm (stationReports ch r₁) (stationReports ch r₂) := by
  induction ch with
  | nil => exact List.Perm.refl _
  | cons c rest ih =>
    rw [stationReports, stationReports, List.flatMap_cons, List.flatMap_cons]
    exact List.Perm.append (h c) ih

lemma merge_eq_of_perm (l₁ l₂ : List (Int × Int)) (h : List.Perm l₁ l₂) :
    merge_intervals l₁ = merge_intervals l₂ := by
  have hp : List.Perm (List.insertionSort lexLe l₁)
      (List.insertionSort lexLe l₂) :=
    ((List.perm_insertionSort lexLe l₁).trans h).trans
      (List.perm_insertionSort lexLe l₂).symm
  have he : List.insertionSort lexLe l₁ = List.insertionSort lexLe l₂ :=
    List.eq_of_perm_of_sorted hp (List.sorted_insertionSort lexLe l₁)
      (List.sorted_insertionSort lexLe l₂)
  rw [merge_intervals_eq, merge_intervals_eq, he]

lemma stationUptime_eq_of_perm (ch : List Int)
    (r₁ r₂ : List (Int × List (Int × Int × Bool)))
    (h : ∀ cid : Int, List.Perm (reportsFor r₁ cid) (reportsFor r₂ cid)) :
    stationUptime ch r₁ = stationUptime ch r₂ := by
  have hSR := stationReports_perm ch r₁ r₂ h
  have hE : List.Perm (allEntries ch r₁) (allEntries ch r₂) := hSR.map _
  have hU : List.Perm (upIntervals ch r₁) (upIntervals ch r₂) :=
    (hSR.filter _).map _
  have hmg : merge_intervals (upIntervals ch r₁) =
      merge_intervals (upIntervals ch r₂) :=
    merge_eq_of_perm _ _ hU
  by_cases hne : allEntries ch r₁ = []
  · have hne₂ : allEntries ch r₂ = [] :=
      List.Perm.eq_nil ((hne ▸ hE).symm)
    rw [stationUptime_of_nil ch r₁ hne, stationUptime_of_nil ch r₂ hne₂]
  · have hne₂ : allEntries ch r₂ ≠ [] := by
      intro he2
      exact hne (List.Perm.eq_nil (he2 ▸ hE))
    have hmin := minStart_eq_of_perm _ _ hE hne
    have hmax := maxEnd_eq_of_perm _ _ hE hne
    by_cases hsp : maxEnd (allEntries ch r₁) - minStart (allEntries ch r₁) ≤ 0
    · rw [stationUptime_of_nonpos ch r₁ hne hsp,
        stationUptime_of_nonpos ch r₂ hne₂ (by rw [← hmin, ← hmax]; exact hsp)]
    · rw [stationUptime_of_pos ch r₁ hne (not_le.mp hsp),
        stationUptime_of_pos ch r₂ hne₂
          (by rw [← hmin, ← hmax]; exact not_le.mp hsp),
        hmin, hmax, hmg]

/-- Claim C8: `compute_station_uptimes` is deterministic and
permutation-invariant: on the same declarations and per-charger report lists
that are permutations of each other, the returned mappings are identical. -/
theorem claim_C8_permutation_invariant (sc : List (Int × List Int))
    (r₁ r₂ : List (Int × List (Int × Int × Bool)))
    (h : ∀ cid : Int, List.Perm (reportsFor r₁ cid) (reportsFor r₂ cid)) :
    compute_station_uptimes sc r₁ = compute_station_uptimes sc r₂ := by
  rw [compute_station_uptimes, compute_station_uptimes]
  exact List.map_congr_left
    (fun sid _ => by rw [stationUptime_eq_of_perm (chargersFor sc sid) r₁ r₂ h])

theorem claim_C8_permutation_invariant_witness :
    compute_station_uptimes [(1, [7])] [(7, [(0, 5, true), (5, 9, false)])] =
      compute_station_uptimes [(1, [7])]
        [(7, [(5, 9, false), (0, 5, true)])] :=
  claim_C8_permutation_invariant [(1, [7])]
    [(7, [(0, 5, true), (5, 9, false)])] [(7, [(5, 9, false), (0, 5, true)])]
    (by
      intro cid
      by_cases h : cid = 7
      · subst h; decide
      · have hb : ((7 : Int) == cid) = false :=
          beq_eq_false_iff_ne.mpr (fun he => h he.symm)
        rw [reportsFor, reportsFor, List.find?_cons_of_neg _ (by rw [hb]; exact Bool.false_ne_true),
          List.find?_cons_of_neg _ (by rw [hb]; exact Bool.false_ne_true)]
      )

/-- Claim C2 fails as stated: for the valid input `[(7, 7)]` (an empty
interval, `start ≤ end`), the merged output `[(7, 7)]` covers the empty
union, which the empty list covers with strictly fewer intervals — so the
output does not have minimal cardinality among covers of the same union. -/
theorem claim_C2_counterexample :
    (∀ p ∈ [((7 : Int), (7 : Int))], p.1 ≤ p.2) ∧
    ¬ (∀ m : List (Int × Int),
        covered m = covered [((7 : Int), (7 : Int))] →
        (merge_intervals [((7 : Int), (7 : Int))]).length ≤ m.length) := by
  refine ⟨by decide, fun h => ?_⟩
  exact absurd (h [] (by decide)) (by decide)

/-- Claim C2, amended: for inputs with `start ≤ end each`, the merged output
is sorted by `(start, end)`, adjacent intervals satisfy `b.start > a.end`,
it covers exactly the union of the input, and its total length is the size
of that union; the minimal-cardinality guarantee additionally requires
every input interval to be nonempty (`start < end`). -/
theorem claim_C2_merge_canonical (l : List (Int × Int))
    (hv : ∀ p ∈ l, p.1 ≤ p.2) :
    List.Sorted lexLe (merge_intervals l) ∧
    List.Chain' (fun a b : Int × Int => a.2 < b.1) (merge_intervals l) ∧
    covered (merge_intervals l) = covered l ∧
    sumLen (merge_intervals l) = ((covered l).card : Int) ∧
    ((∀ p ∈ l, p.1 < p.2) →
      ∀ m : List (Int × Int), covered m = covered l →
        (merge_intervals l).length ≤ m.length) := by
  refine ⟨merge_sorted l hv, merge_chain l, merge_covered l, ?_, ?_⟩
  · rw [← merge_covered l]
    exact (covered_card_of_pairwise _ (merge_pairwise l hv)
      (merge_valid l hv)).symm
  · intro hpos m hm
    exact length_le_of_covered_eq _ m (merge_pairwise l hv)
      (merge_pos l hpos) (by rw [merge_covered l]; exact hm)

theorem claim_C2_merge_canonical_witness :
    List.Sorted lexLe (merge_intervals [((0 : Int), 2), (1, 3), (10, 11)]) ∧
    List.Chain' (fun a b : Int × Int => a.2 < b.1)
      (merge_intervals [((0 : Int), 2), (1, 3), (10, 11)]) ∧
    covered (merge_intervals [((0 : Int), 2), (1, 3), (10, 11)]) =
      covered [((0 : Int), 2), (1, 3), (10, 11)] ∧
    sumLen (merge_intervals [((0 : Int), 2), (1, 3), (10, 11)]) =
      ((covered [((0 : Int), 2), (1, 3), (10, 11)]).card : Int) ∧
    ((∀ p ∈ [((0 : Int), 2), (1, 3), (10, 11)], p.1 < p.2) →
      ∀ m : List (Int × Int),
        covered m = covered [((0 : Int), 2), (1, 3), (10, 11)] →
        (merge_intervals [((0 : Int), 2), (1, 3), (10, 11)]).length ≤
          m.length) :=
  claim_C2_merge_canonical [((0 : Int), 2), (1, 3), (10, 11)] (by decide)
